import Mathlib

/-!
Verification of the music-theory core of the Ecotonova repository
(`src/theory/pitch.rs`, `src/theory/interval.rs`, `src/theory/scale.rs`,
`src/instruments/player.rs`).

Modelling conventions.

Floating point: every `f32` the source builds from a pitch is
`base(name) + offset(accidental) + octave * 6.0`, where the base and offset
tables produce multiples of `0.5` of magnitude at most `6.5`, and `octave`
is an `i8`.  Every intermediate value in the source's coordinate arithmetic
is therefore a multiple of `0.5` of magnitude below `2^11`; such values and
all their sums, differences, and divisions by `0.5` are exactly
representable in `f32` (24 bits of significand), so the `f32` arithmetic is
exact and we model `f32` values by `ℚ`.  In particular no NaN or infinity
ever arises from a pitch, which is what makes the modelled
`PartialOrd::partial_cmp` total.

Machine integers: `octave` is an `i8`; theorems whose truth depends on the
8-bit width carry explicit `-128 ≤ octave ≤ 127` hypotheses.  The source's
`u8`/`i8`/`u16` add, sub, mul and `abs` operations are modelled by checked
operations returning `Option`: `none` models the arithmetic-overflow panic
of a checked (debug) Rust build (a release build would wrap instead; every
claim below that meets an overflow treats `none` as the failure itself, not
as a wrapped number).  Rust `as`-casts from `f32` to `u16` saturate rather
than panic and are modelled by truncation plus clamping (`asU16`).

Fallible code (`Result<_, ()>` and parsing `TryFrom`) is modelled by
`Option`, with `none` for `Err`.  A panic inside an otherwise total
function (the `unwrap` in `get_specific_interval`) is also modelled by an
`Option` result, with `none` for the panic; `Interval::get_quality`, whose
Rust type is `Result<IntervalQuality, ()>`, becomes
`Option (Option IntervalQuality)`: the outer layer is panic, the inner
layer is `Ok`/`Err`.
-/

namespace Ecotonova

/-- The seven letter names, from `pitch.rs` (`enum PitchName`). -/
inductive PitchName where
  | C | D | E | F | G | A | B
deriving DecidableEq

/-- Accidentals, from `pitch.rs` (`enum Accidental`). -/
inductive Accidental where
  | Sharp | Flat | DoubleSharp | DoubleFlat | None
deriving DecidableEq

/-- A pitch, from `pitch.rs` (`struct Pitch`).  `octave` is an `i8` in the
source; we use `ℤ` and put the 8-bit range in hypotheses where it matters. -/
structure Pitch where
  name : PitchName
  accidental : Accidental
  octave : ℤ
deriving DecidableEq

/-- Base offset of a letter within an octave, from the `match` table in
`impl From<Pitch> for f32` in `pitch.rs`. -/
def pitchValue : PitchName → ℚ
  | .C => 0
  | .D => 1
  | .E => 2
  | .F => 2.5
  | .G => 3.5
  | .A => 4.5
  | .B => 5.5

/-- Accidental offset, from the `match` table in `impl From<Pitch> for f32`
in `pitch.rs`. -/
def accidentalValue : Accidental → ℚ
  | .Sharp => 0.5
  | .Flat => -0.5
  | .DoubleSharp => 1
  | .DoubleFlat => -1
  | .None => 0

/-- The pitch coordinate: `impl From<Pitch> for f32` in `pitch.rs`,
`(pitch_value + accidental_value) + (octave as f32 * 6.0)`. -/
def f32_from_pitch (p : Pitch) : ℚ :=
  (pitchValue p.name + accidentalValue p.accidental) + (p.octave : ℚ) * 6

/-- Twice the coordinate, as an integer; a proof device relating the exact
rational model of the `f32` coordinate to integer arithmetic. -/
def coordTwice (p : Pitch) : ℤ :=
  pitchBase2 p.name + acc2 p.accidental + 12 * p.octave
where
  /-- Twice the letter base offset. -/
  pitchBase2 : PitchName → ℤ
    | .C => 0
    | .D => 2
    | .E => 4
    | .F => 5
    | .G => 7
    | .A => 9
    | .B => 11
  /-- Twice the accidental offset. -/
  acc2 : Accidental → ℤ
    | .Sharp => 1
    | .Flat => -1
    | .DoubleSharp => 2
    | .DoubleFlat => -2
    | .None => 0

/-- `impl PartialEq for Pitch` in `pitch.rs`: equality of the `f32`
coordinates. -/
def pitch_eq (p q : Pitch) : Bool :=
  decide (f32_from_pitch p = f32_from_pitch q)

/-- The `<` comparison derived from `impl PartialOrd for Pitch` in
`pitch.rs`: order of the `f32` coordinates. -/
def pitch_lt (p q : Pitch) : Bool :=
  decide (f32_from_pitch p < f32_from_pitch q)

/-- `impl PartialOrd for Pitch`: `f32::partial_cmp` of the coordinates.
`f32::partial_cmp` returns `None` exactly when an operand is NaN; the
coordinate of a pitch is never NaN (see the header comment), so the model
wraps the total rational comparison in `some`. -/
def pitch_pcmp (p q : Pitch) : Option Ordering :=
  some (compare (f32_from_pitch p) (f32_from_pitch q))

/-- `Pitch::distance` in `pitch.rs`:
`(f32::from(other) - f32::from(self)).abs()`. -/
def Pitch.distance (p other : Pitch) : ℚ :=
  |f32_from_pitch other - f32_from_pitch p|

/-- The exact value of `f32::MAX`, `(2 - 2^-23) * 2^127`. -/
def f32MAX : ℚ := (2 ^ 24 - 1) * 2 ^ 104

/-- The loop of `Pitch::get_the_nearest_pitch` in `pitch.rs`: state is the
current `nearest_pitch` and `min_distance`; a candidate replaces the state
iff its distance is strictly smaller than `min_distance`. -/
def nearestGo (p : Pitch) : Pitch → ℚ → List Pitch → Pitch
  | best, _, [] => best
  | best, minD, c :: rest =>
    if Pitch.distance p c < minD then nearestGo p c (Pitch.distance p c) rest
    else nearestGo p best minD rest

/-- `Pitch::get_the_nearest_pitch` in `pitch.rs`: the scan starts with
`nearest_pitch = self` and `min_distance = f32::MAX`. -/
def Pitch.get_the_nearest_pitch (p : Pitch) (others : List Pitch) : Pitch :=
  nearestGo p p f32MAX others

/-- Interval qualities, from `interval.rs` (`enum IntervalQuality`). -/
inductive IntervalQuality where
  | Perfect | Major | Minor | Augmented | Diminished
deriving DecidableEq

/-- An interval, from `interval.rs` (`struct Interval`). -/
structure Interval where
  lower : Pitch
  upper : Pitch
deriving DecidableEq

/-- `Interval::new` in `interval.rs`: order the two pitches by coordinate,
swapping when `p1 < p2` fails (so equal-coordinate arguments land in the
`else` branch with `lower = p2`). -/
def Interval.new (p1 p2 : Pitch) : Interval :=
  if pitch_lt p1 p2 then ⟨p1, p2⟩ else ⟨p2, p1⟩

/-- Letter positions, the `get_position` closure in `Interval::get_number`. -/
def position : PitchName → ℕ
  | .C => 0
  | .D => 1
  | .E => 2
  | .F => 3
  | .G => 4
  | .A => 5
  | .B => 6

/-- Checked `i8` subtraction: `none` models the overflow panic. -/
def i8_sub (a b : ℤ) : Option ℤ :=
  if -128 ≤ a - b ∧ a - b ≤ 127 then some (a - b) else none

/-- Checked `i8::abs`: panics (`none`) on `i8::MIN`. -/
def i8_abs (a : ℤ) : Option ℤ :=
  if a = -128 then none else some |a|

/-- Checked `u8` multiplication by 7 (`.abs() as u8 * 7` in
`Interval::get_number`): `none` models the overflow panic. -/
def u8_mul7 (a : ℕ) : Option ℕ :=
  if a * 7 ≤ 255 then some (a * 7) else none

/-- Checked `u8` subtraction: `none` models the underflow panic. -/
def u8_sub (a b : ℕ) : Option ℕ :=
  if b ≤ a then some (a - b) else none

/-- Checked `u8` addition: `none` models the overflow panic. -/
def u8_add (a b : ℕ) : Option ℕ :=
  if a + b ≤ 255 then some (a + b) else none

/-- Checked `u16` subtraction: `none` models the underflow panic. -/
def u16_sub (a b : ℕ) : Option ℕ :=
  if b ≤ a then some (a - b) else none

/-- The Rust `as`-cast from `f32` to `u16`: truncate toward zero and clamp
into `0..=65535` (saturating, never panicking). -/
def asU16 (q : ℚ) : ℕ :=
  min 65535 (Int.toNat ⌊q⌋)

/-- `Interval::get_number` in `interval.rs`, with the source's `u8`/`i8`
arithmetic made checked.  The `octave_diff` binding is evaluated before the
`if`, exactly as in the source. -/
def Interval.get_number (i : Interval) (ignore_octave : Bool) : Option ℕ :=
  match i8_sub i.upper.octave i.lower.octave with
  | none => none
  | some d =>
    match i8_abs d with
    | none => none
    | some a =>
      match u8_mul7 a.toNat with
      | none => none
      | some octave_diff =>
        let lp := position i.lower.name
        let up := position i.upper.name
        if ignore_octave then
          if up < lp then some (up + 7 - lp + 1) else some (up - lp + 1)
        else
          match u8_sub up lp with
          | none => none
          | some s1 => u8_add (s1 + 1) octave_diff

/-- The `semitones` binding of `Interval::get_number_of_semitones`:
`((f32::from(upper) - f32::from(lower)) / 0.5) as u16`. -/
def rawSemitones (i : Interval) : ℕ :=
  asU16 ((f32_from_pitch i.upper - f32_from_pitch i.lower) / (0.5 : ℚ))

/-- `Interval::get_number_of_semitones` in `interval.rs`.  In the
`ignore_octave` branch the source computes
`(upper.octave - lower.octave).abs() as f32` (checked `i8` arithmetic)
before testing `semitones > 12`, and on the true branch subtracts
`(octave_diff * 12.0) as u16` in `u16`. -/
def Interval.get_number_of_semitones (i : Interval) (ignore_octave : Bool) :
    Option ℕ :=
  let semitones := rawSemitones i
  if ignore_octave then
    match i8_sub i.upper.octave i.lower.octave with
    | none => none
    | some d =>
      match i8_abs d with
      | none => none
      | some a =>
        if 12 < semitones then u16_sub semitones (asU16 ((a : ℚ) * 12))
        else some semitones
  else some semitones

/-- The quality lookup of `Interval::get_quality` in `interval.rs`: the
nested `match number { .. match semitones { .. } }` table, with `none` for
the `Err(())` arms. -/
def quality_table : ℕ → ℕ → Option IntervalQuality
  | 1, 0 => some .Perfect
  | 1, 1 => some .Augmented
  | 2, 0 => some .Diminished
  | 2, 1 => some .Minor
  | 2, 2 => some .Major
  | 2, 3 => some .Augmented
  | 3, 2 => some .Diminished
  | 3, 3 => some .Minor
  | 3, 4 => some .Major
  | 3, 5 => some .Augmented
  | 4, 4 => some .Diminished
  | 4, 5 => some .Perfect
  | 4, 6 => some .Augmented
  | 5, 6 => some .Diminished
  | 5, 7 => some .Perfect
  | 5, 8 => some .Augmented
  | 6, 7 => some .Diminished
  | 6, 8 => some .Minor
  | 6, 9 => some .Major
  | 6, 10 => some .Augmented
  | 7, 9 => some .Diminished
  | 7, 10 => some .Minor
  | 7, 11 => some .Major
  | 7, 12 => some .Augmented
  | _, _ => none

/-- `Interval::get_quality` in `interval.rs`: looks up
`(get_number(true), get_number_of_semitones(true))` in the table.  Outer
`Option` is a panic inside the two helpers; inner `Option` is the
`Result<IntervalQuality, ()>` value. -/
def Interval.get_quality (i : Interval) : Option (Option IntervalQuality) :=
  match Interval.get_number i true with
  | none => none
  | some n =>
    match Interval.get_number_of_semitones i true with
    | none => none
    | some s => some (quality_table n s)

/-- `Interval::get_specific_interval` in `interval.rs`:
`(get_number(true), get_quality().unwrap(), get_number_of_semitones(false) > 12)`.
The `unwrap` turns the `Err` case into a panic, modelled by `none`. -/
def Interval.get_specific_interval (i : Interval) :
    Option (ℕ × IntervalQuality × Bool) :=
  match Interval.get_number i true with
  | none => none
  | some n =>
    match Interval.get_quality i with
    | none => none
    | some none => none
    | some (some q) => some (n, q, decide (12 < rawSemitones i))

/-- The `shift_steps` computation of `generate_pitch_samples` in
`player.rs`, as a function of the requested pitch and the chosen nearest
sample pitch: `Interval::new(pitch, new_pitch).get_number_of_semitones(false) as f32`,
negated when `new_pitch < pitch`.  `get_number_of_semitones(false)` never
panics, so the value is a plain rational. -/
def player_shift_steps (pitch new_pitch : Pitch) : ℚ :=
  let s : ℚ := (rawSemitones (Interval.new pitch new_pitch) : ℚ)
  if pitch_lt new_pitch pitch then -s else s

/-- The signed semitone amount `generate_pitch_samples` hands to the
external pitch-shift transform: the source calls
`ps.shift_pitch(5, -shift_steps, ..)`, so the handed value is the negation
of `shift_steps`. -/
def player_handed_semitones (pitch new_pitch : Pitch) : ℚ :=
  -player_shift_steps pitch new_pitch

/-- A scale, from `scale.rs` (`struct Scale`); steps are `u8` half-step
counts. -/
structure Scale where
  steps : List ℕ
deriving DecidableEq

/-- `Scale::try_new` in `scale.rs`: folds the steps into an `f32` sum
(exact in the modelled range, see the header comment) and fails unless the
sum is exactly `12.0`. -/
def Scale.try_new (steps : List ℕ) : Option Scale :=
  let sum : ℚ := steps.foldl (fun (acc : ℚ) (step : ℕ) => acc + (step : ℚ)) 0
  if sum ≠ 12 then none else some ⟨steps⟩

/-- Decimal digit test for a character, `[0-9]` in the parsing regex of
`impl TryFrom<String> for Pitch`. -/
def isDigitCh (c : Char) : Bool :=
  '0' ≤ c && c ≤ '9'

/-- Numeric value of a digit character. -/
def digitVal (c : Char) : ℕ :=
  c.toNat - '0'.toNat

/-- Letter capture of the parsing regex `^([A-G])..` together with the
`TryFrom<String> for PitchName` conversion applied to it. -/
def letterName (c : Char) : Option PitchName :=
  if c = 'A' then some .A
  else if c = 'B' then some .B
  else if c = 'C' then some .C
  else if c = 'D' then some .D
  else if c = 'E' then some .E
  else if c = 'F' then some .F
  else if c = 'G' then some .G
  else none

/-- Octave capture `([0-9]|[1-9]\d)$` of the parsing regex, plus
`str::parse::<i8>` (which always succeeds on the matched 0–99 numerals):
one digit, or two digits whose first is nonzero, ending the string. -/
def parseOctave : List Char → Option ℕ
  | [d] => if isDigitCh d then some (digitVal d) else none
  | [d1, d2] =>
    if isDigitCh d1 ∧ d1 ≠ '0' ∧ isDigitCh d2 then
      some (10 * digitVal d1 + digitVal d2)
    else none
  | _ => none

/-- Marker capture `(#{1,2}|b{1,2})?` of the parsing regex, as the maximal
marker prefix (length at most 2) plus the rest of the input.  Because the
marker characters `#`/`b` are not digits, the committed maximal match is
equivalent to the regex's backtracking search: a shorter marker would leave
a `#` or `b` in front of the octave digits, which cannot match
`([0-9]|[1-9]\d)$`. -/
def splitMarker : List Char → Accidental × List Char
  | [] => (.None, [])
  | [c] =>
    if c = '#' then (.Sharp, [])
    else if c = 'b' then (.Flat, [])
    else (.None, [c])
  | c1 :: c2 :: rest =>
    if c1 = '#' then
      if c2 = '#' then (.DoubleSharp, rest) else (.Sharp, c2 :: rest)
    else if c1 = 'b' then
      if c2 = 'b' then (.DoubleFlat, rest) else (.Flat, c2 :: rest)
    else (.None, c1 :: c2 :: rest)

/-- `impl TryFrom<String> for Pitch` in `pitch.rs`: match the anchored
regex `^([A-G])(#{1,2}|b{1,2})?([0-9]|[1-9]\d)$` and convert the captures.
Text is modelled as a list of characters. -/
def parsePitch : List Char → Option Pitch
  | [] => none
  | c :: rest =>
    match letterName c with
    | none => none
    | some n =>
      match parseOctave (splitMarker rest).2 with
      | none => none
      | some o => some ⟨n, (splitMarker rest).1, (o : ℤ)⟩

/-- Modelled from the spec's words for the amended resolver claim: the
earliest candidate attaining the minimal distance to `p`, or `none` for an
empty candidate list.  Ties prefer the earlier candidate. -/
def firstMin (p : Pitch) : List Pitch → Option Pitch
  | [] => none
  | c :: rest =>
    match firstMin p rest with
    | none => some c
    | some b => if Pitch.distance p c ≤ Pitch.distance p b then some c else some b

/-- Modelled from the claim's words (C2): the same scan as
`get_the_nearest_pitch`, but with the requested pitch as initial best at
distance `0` instead of `f32::MAX`. -/
def nearest_spec_zero (p : Pitch) (others : List Pitch) : Pitch :=
  nearestGo p p 0 others

/-- The five accidental marker spellings of the claimed text grammar (C8). -/
def markerStrings : List (List Char) :=
  [[], ['#'], ['#', '#'], ['b'], ['b', 'b']]

/-- The seven letter characters of the claimed text grammar (C8). -/
def letterChars : List Char := ['A', 'B', 'C', 'D', 'E', 'F', 'G']

/-- Modelled from the claim's words (C8): an octave written as 1–2 decimal
digits, values 0–99 (automatic for at most two digits). -/
def claimOctave (o : List Char) : Prop :=
  (∃ d, o = [d] ∧ isDigitCh d = true) ∨
  (∃ d1 d2, o = [d1, d2] ∧ isDigitCh d1 = true ∧ isDigitCh d2 = true)

/-- Modelled from the claim's words (C8): letter in A–G, optional marker
among the five canonical spellings, then a 1–2 digit octave, with no
separators. -/
def claimGrammar (cs : List Char) : Prop :=
  ∃ l m o, cs = l :: (m ++ o) ∧ l ∈ letterChars ∧ m ∈ markerStrings ∧
    claimOctave o

/-- The octave rule the code actually enforces: one digit, or two digits
whose first is nonzero (`[0-9]|[1-9]\d`), so `00`–`09` are rejected. -/
def amendedOctave (o : List Char) : Prop :=
  (∃ d, o = [d] ∧ isDigitCh d = true) ∨
  (∃ d1 d2, o = [d1, d2] ∧ isDigitCh d1 = true ∧ d1 ≠ '0' ∧
    isDigitCh d2 = true)

/-- The amended text grammar for C8: like `claimGrammar` but with the
leading-zero restriction on two-digit octaves. -/
def amendedGrammar (cs : List Char) : Prop :=
  ∃ l m o, cs = l :: (m ++ o) ∧ l ∈ letterChars ∧ m ∈ markerStrings ∧
    amendedOctave o

/-- Concrete pitch: C0. -/
def pC0 : Pitch := ⟨.C, .None, 0⟩

/-- Concrete pitch: D0. -/
def pD0 : Pitch := ⟨.D, .None, 0⟩

/-- Concrete pitch: E0. -/
def pE0 : Pitch := ⟨.E, .None, 0⟩

/-- Concrete pitch: F0. -/
def pF0 : Pitch := ⟨.F, .None, 0⟩

/-- Concrete pitch: G0. -/
def pG0 : Pitch := ⟨.G, .None, 0⟩

/-- Concrete pitch: A0. -/
def pA0 : Pitch := ⟨.A, .None, 0⟩

/-- Concrete pitch: B0. -/
def pB0 : Pitch := ⟨.B, .None, 0⟩

/-- Concrete pitch: C1. -/
def pC1 : Pitch := ⟨.C, .None, 1⟩

/-- Concrete pitch: C2. -/
def pC2 : Pitch := ⟨.C, .None, 2⟩

/-- Concrete pitch: E0 one octave up, E1. -/
def pE1 : Pitch := ⟨.E, .None, 1⟩

/-- Concrete pitch: C sharp 0. -/
def pCs0 : Pitch := ⟨.C, .Sharp, 0⟩

/-- Concrete pitch: D flat 0 (enharmonic with C sharp 0). -/
def pDb0 : Pitch := ⟨.D, .Flat, 0⟩

/-- Concrete pitch: C double sharp 0. -/
def pCss0 : Pitch := ⟨.C, .DoubleSharp, 0⟩

/-- The integer `coordTwice` is exactly twice the `f32` coordinate. -/
theorem coordTwice_spec (p : Pitch) :
    (2 : ℚ) * f32_from_pitch p = ((coordTwice p : ℤ) : ℚ) := by
  obtain ⟨n, a, o⟩ := p
  cases n <;> cases a <;>
    (simp only [f32_from_pitch, coordTwice, coordTwice.pitchBase2,
      coordTwice.acc2, pitchValue, accidentalValue]
     push_cast
     ring)

/-- Coordinate equality in the rational model matches `coordTwice`. -/
theorem f32_eq_iff (p q : Pitch) :
    f32_from_pitch p = f32_from_pitch q ↔ coordTwice p = coordTwice q := by
  rw [← Int.cast_inj (α := ℚ), ← coordTwice_spec, ← coordTwice_spec]
  constructor
  · intro h; rw [h]
  · intro h; exact mul_left_cancel₀ (by norm_num) h

/-- Coordinate order in the rational model matches `coordTwice`. -/
theorem f32_lt_iff (p q : Pitch) :
    f32_from_pitch p < f32_from_pitch q ↔ coordTwice p < coordTwice q := by
  rw [← Int.cast_lt (R := ℚ), ← coordTwice_spec, ← coordTwice_spec]
  exact (mul_lt_mul_left (show (0 : ℚ) < 2 by norm_num)).symm

/-- Computable form of `pitch_lt`. -/
theorem pitch_lt_eq (p q : Pitch) :
    pitch_lt p q = decide (coordTwice p < coordTwice q) := by
  rw [pitch_lt]
  exact decide_eq_decide.mpr (f32_lt_iff p q)

/-- Computable form of `pitch_eq`. -/
theorem pitch_eq_eq (p q : Pitch) :
    pitch_eq p q = decide (coordTwice p = coordTwice q) := by
  rw [pitch_eq]
  exact decide_eq_decide.mpr (f32_eq_iff p q)

/-- Computable form of `Interval.new`. -/
theorem Interval.new_eq (p1 p2 : Pitch) :
    Interval.new p1 p2 =
      if coordTwice p1 < coordTwice p2 then ⟨p1, p2⟩ else ⟨p2, p1⟩ := by
  rw [Interval.new, pitch_lt_eq]
  by_cases h : coordTwice p1 < coordTwice p2 <;> simp [h]

/-- The `f32`-to-`u16` cast of an integer value. -/
theorem asU16_intCast (n : ℤ) : asU16 ((n : ℚ)) = min 65535 n.toNat := by
  simp [asU16, Int.floor_intCast]

/-- The `f32`-to-`u16` cast of twelve times an integer value. -/
theorem asU16_mul12 (a : ℤ) :
    asU16 ((a : ℚ) * 12) = min 65535 (a * 12).toNat := by
  rw [show ((a : ℚ) * 12) = (((a * 12 : ℤ)) : ℚ) by push_cast; ring,
    asU16_intCast]

/-- Computable form of `rawSemitones`: the coordinate difference in
half-step units, clamped into `u16`. -/
theorem rawSemitones_eq (i : Interval) :
    rawSemitones i
      = min 65535 (coordTwice i.upper - coordTwice i.lower).toNat := by
  have h : (f32_from_pitch i.upper - f32_from_pitch i.lower) / (0.5 : ℚ)
      = (((coordTwice i.upper - coordTwice i.lower) : ℤ) : ℚ) := by
    have hu := coordTwice_spec i.upper
    have hl := coordTwice_spec i.lower
    rw [div_eq_iff (by norm_num : (0.5 : ℚ) ≠ 0)]
    push_cast at hu hl ⊢
    linarith
  rw [rawSemitones, h, asU16_intCast]

/-- Computable form of `Pitch.distance`. -/
theorem distance_eq (p o : Pitch) :
    Pitch.distance p o = ((|coordTwice o - coordTwice p| : ℤ) : ℚ) / 2 := by
  have h : (f32_from_pitch o - f32_from_pitch p) * 2
      = (((coordTwice o - coordTwice p) : ℤ) : ℚ) := by
    have ho := coordTwice_spec o
    have hp := coordTwice_spec p
    push_cast at ho hp ⊢
    linarith
  rw [Pitch.distance, Int.cast_abs, ← h, abs_mul]
  norm_num

/-- Distance comparison reduces to integer comparison. -/
theorem distance_le_iff (p a b : Pitch) :
    Pitch.distance p a ≤ Pitch.distance p b ↔
      |coordTwice a - coordTwice p| ≤ |coordTwice b - coordTwice p| := by
  have h2 : (0 : ℚ) < 2 := by norm_num
  rw [distance_eq, distance_eq, div_le_div_iff₀ h2 h2,
    mul_le_mul_right h2]
  exact Int.cast_le

/-- Strict distance comparison reduces to integer comparison. -/
theorem distance_lt_iff (p a b : Pitch) :
    Pitch.distance p a < Pitch.distance p b ↔
      |coordTwice a - coordTwice p| < |coordTwice b - coordTwice p| := by
  have h2 : (0 : ℚ) < 2 := by norm_num
  rw [distance_eq, distance_eq, div_lt_div_iff₀ h2 h2,
    mul_lt_mul_right h2]
  exact Int.cast_lt

/-- Range of `coordTwice` over `i8` octaves. -/
theorem coordTwice_bounds (p : Pitch) (h1 : -128 ≤ p.octave)
    (h2 : p.octave ≤ 127) :
    -1538 ≤ coordTwice p ∧ coordTwice p ≤ 1537 := by
  obtain ⟨n, a, o⟩ := p
  simp only at h1 h2
  cases n <;> cases a <;>
    (simp only [coordTwice, coordTwice.pitchBase2, coordTwice.acc2]
     omega)

/-- Every distance between `i8`-octave pitches is far below `f32::MAX`. -/
theorem distance_lt_f32MAX (p c : Pitch)
    (hp1 : -128 ≤ p.octave) (hp2 : p.octave ≤ 127)
    (hc1 : -128 ≤ c.octave) (hc2 : c.octave ≤ 127) :
    Pitch.distance p c < f32MAX := by
  obtain ⟨hpl, hpu⟩ := coordTwice_bounds p hp1 hp2
  obtain ⟨hcl, hcu⟩ := coordTwice_bounds c hc1 hc2
  have habs : |coordTwice c - coordTwice p| ≤ 3075 :=
    abs_le.mpr (by omega)
  have hq : ((|coordTwice c - coordTwice p| : ℤ) : ℚ) ≤ 3075 := by
    exact_mod_cast habs
  rw [distance_eq, f32MAX]
  have hbig : (3075 : ℚ) / 2 < (2 ^ 24 - 1) * 2 ^ 104 := by norm_num
  linarith

/-- Computable form of `Scale.try_new`: the exact rational fold agrees
with the natural-number sum. -/
theorem Scale.try_new_eq (steps : List ℕ) :
    Scale.try_new steps = if steps.sum ≠ 12 then none else some ⟨steps⟩ := by
  have hfold : ∀ (l : List ℕ) (q : ℚ),
      l.foldl (fun (acc : ℚ) (step : ℕ) => acc + (step : ℚ)) q
        = q + (l.sum : ℚ) := by
    intro l
    induction l with
    | nil => intro q; simp
    | cons x xs ih =>
      intro q
      rw [List.foldl_cons, ih, List.sum_cons]
      push_cast
      ring
  have h : (steps.foldl (fun (acc : ℚ) (step : ℕ) => acc + (step : ℚ)) 0)
      = (steps.sum : ℚ) := by
    rw [hfold steps 0, zero_add]
  rw [Scale.try_new]
  simp only [h]
  by_cases hs : steps.sum = 12
  · simp [hs]
  · have hq : (steps.sum : ℚ) ≠ 12 := by exact_mod_cast hs
    rw [if_pos hq, if_pos hs]

/-- Difference of coordinates divided by `0.5`, in integer form. -/
theorem f32_sub_div_half (p q : Pitch) :
    (f32_from_pitch p - f32_from_pitch q) / (0.5 : ℚ)
      = ((coordTwice p - coordTwice q : ℤ) : ℚ) := by
  have hu := coordTwice_spec p
  have hl := coordTwice_spec q
  rw [div_eq_iff (by norm_num : (0.5 : ℚ) ≠ 0)]
  push_cast at hu hl ⊢
  linarith

/-- Case split for `Interval.new`. -/
theorem interval_new_cases (p q : Pitch) :
    (Interval.new p q = ⟨p, q⟩ ∧ coordTwice p < coordTwice q) ∨
    (Interval.new p q = ⟨q, p⟩ ∧ coordTwice q ≤ coordTwice p) := by
  rw [Interval.new_eq]
  by_cases h : coordTwice p < coordTwice q
  · exact Or.inl ⟨if_pos h, h⟩
  · exact Or.inr ⟨if_neg h, by omega⟩

/-- Range of the doubled letter base offsets. -/
theorem base2_bounds (n : PitchName) :
    0 ≤ coordTwice.pitchBase2 n ∧ coordTwice.pitchBase2 n ≤ 11 := by
  cases n <;> decide

/-- Range of the doubled accidental offsets. -/
theorem acc2_bounds (a : Accidental) :
    -2 ≤ coordTwice.acc2 a ∧ coordTwice.acc2 a ≤ 2 := by
  cases a <;> decide

/-- The doubled accidental offsets are distinct. -/
theorem acc2_inj (a b : Accidental)
    (h : coordTwice.acc2 a = coordTwice.acc2 b) : a = b := by
  cases a <;> cases b <;> first | rfl | exact absurd h (by decide)

/-- Evaluating checked `i8` subtraction inside its range. -/
theorem i8_sub_eq_some {a b : ℤ} (h1 : -128 ≤ a - b) (h2 : a - b ≤ 127) :
    i8_sub a b = some (a - b) := by
  rw [i8_sub, if_pos ⟨h1, h2⟩]

/-- Evaluating checked `i8::abs` away from `i8::MIN`, in `natAbs` form. -/
theorem i8_abs_eq_some {a : ℤ} (h : a ≠ -128) :
    i8_abs a = some ((a.natAbs : ℤ)) := by
  rw [i8_abs, if_neg h, Int.abs_eq_natAbs]

/-- Semitone count of an equal-coordinate pair is zero for either flag. -/
theorem sem_zero_of_coord_eq (p1 p2 : Pitch)
    (h : f32_from_pitch p1 = f32_from_pitch p2) (b : Bool) :
    Interval.get_number_of_semitones (Interval.new p1 p2) b = some 0 := by
  have hct : coordTwice p1 = coordTwice p2 := (f32_eq_iff p1 p2).mp h
  have hnew : Interval.new p1 p2 = ⟨p2, p1⟩ := by
    rw [Interval.new_eq, if_neg (show ¬coordTwice p1 < coordTwice p2 by omega)]
  have hct1 : coordTwice p1 = coordTwice.pitchBase2 p1.name
      + coordTwice.acc2 p1.accidental + 12 * p1.octave := rfl
  have hct2 : coordTwice p2 = coordTwice.pitchBase2 p2.name
      + coordTwice.acc2 p2.accidental + 12 * p2.octave := rfl
  rw [hct1, hct2] at hct
  have hb1 := base2_bounds p1.name
  have hb2 := base2_bounds p2.name
  have ha1 := acc2_bounds p1.accidental
  have ha2 := acc2_bounds p2.accidental
  have hraw : rawSemitones ⟨p2, p1⟩ = 0 := by
    rw [rawSemitones_eq]
    simp only [hct1, hct2]
    omega
  have hd1 : (-128 : ℤ) ≤ p1.octave - p2.octave := by omega
  have hd2 : p1.octave - p2.octave ≤ 127 := by omega
  have hd3 : p1.octave - p2.octave ≠ -128 := by intro he; omega
  have hcond : ¬12 < rawSemitones ⟨p2, p1⟩ := by omega
  cases b with
  | false =>
    rw [hnew]
    simp only [Interval.get_number_of_semitones, hraw,
      if_neg Bool.false_ne_true]
  | true =>
    rw [hnew]
    simp only [Interval.get_number_of_semitones, eq_self_iff_true, if_true,
      i8_sub_eq_some hd1 hd2, i8_abs_eq_some hd3, if_neg hcond]
    rw [hraw]

/-- Core behaviour of `get_number_of_semitones` on an ordered interval with
`i8`-range octaves. -/
theorem sem_core (L U : Pitch)
    (hL1 : -128 ≤ L.octave) (hL2 : L.octave ≤ 127)
    (hU1 : -128 ≤ U.octave) (hU2 : U.octave ≤ 127)
    (hord : coordTwice L ≤ coordTwice U) :
    rawSemitones ⟨L, U⟩ = (coordTwice U - coordTwice L).toNat ∧
    Interval.get_number_of_semitones ⟨L, U⟩ false = some (rawSemitones ⟨L, U⟩) ∧
    ((rawSemitones ⟨L, U⟩ : ℚ)
      = (f32_from_pitch U - f32_from_pitch L) / (0.5 : ℚ)) ∧
    (rawSemitones ⟨L, U⟩ ≤ 12 →
      Interval.get_number_of_semitones ⟨L, U⟩ true
        = some (rawSemitones ⟨L, U⟩)) ∧
    (12 < rawSemitones ⟨L, U⟩ →
      12 * (U.octave - L.octave).natAbs ≤ rawSemitones ⟨L, U⟩ →
      (U.octave - L.octave).natAbs ≤ 127 →
      Interval.get_number_of_semitones ⟨L, U⟩ true
        = some (rawSemitones ⟨L, U⟩ - 12 * (U.octave - L.octave).natAbs)) ∧
    (12 < rawSemitones ⟨L, U⟩ →
      rawSemitones ⟨L, U⟩ < 12 * (U.octave - L.octave).natAbs →
      Interval.get_number_of_semitones ⟨L, U⟩ true = none) := by
  have hctU : coordTwice U = coordTwice.pitchBase2 U.name
      + coordTwice.acc2 U.accidental + 12 * U.octave := rfl
  have hctL : coordTwice L = coordTwice.pitchBase2 L.name
      + coordTwice.acc2 L.accidental + 12 * L.octave := rfl
  rw [hctU, hctL] at hord
  have hb1 := base2_bounds U.name
  have hb2 := base2_bounds L.name
  have ha1 := acc2_bounds U.accidental
  have ha2 := acc2_bounds L.accidental
  have hraw : rawSemitones ⟨L, U⟩
      = ((coordTwice.pitchBase2 U.name + coordTwice.acc2 U.accidental
            + 12 * U.octave)
         - (coordTwice.pitchBase2 L.name + coordTwice.acc2 L.accidental
            + 12 * L.octave)).toNat := by
    rw [rawSemitones_eq]
    simp only [hctU, hctL]
    omega
  refine ⟨?_, ?_, ?_, ?_, ?_, ?_⟩
  · rw [hraw, hctU, hctL]
  · simp only [Interval.get_number_of_semitones, if_neg Bool.false_ne_true]
  · rw [hraw, f32_sub_div_half, hctU, hctL]
    exact_mod_cast Int.toNat_of_nonneg (by omega)
  · intro h12
    have hdlo : (-128 : ℤ) ≤ U.octave - L.octave := by omega
    have hdhi : U.octave - L.octave ≤ 127 := by omega
    have hdne : U.octave - L.octave ≠ -128 := by intro he; omega
    have hcond : ¬12 < rawSemitones ⟨L, U⟩ := by omega
    simp only [Interval.get_number_of_semitones, eq_self_iff_true, if_true,
      i8_sub_eq_some hdlo hdhi, i8_abs_eq_some hdne, if_neg hcond]
  · intro h12 hle h127
    have hdlo : (-128 : ℤ) ≤ U.octave - L.octave := by omega
    have hdhi : U.octave - L.octave ≤ 127 := by omega
    have hdne : U.octave - L.octave ≠ -128 := by intro he; omega
    have hcast : ((((U.octave - L.octave).natAbs : ℤ)) * 12).toNat
        = 12 * (U.octave - L.octave).natAbs := by
      rw [show (((U.octave - L.octave).natAbs : ℤ)) * 12
          = ((12 * (U.octave - L.octave).natAbs : ℕ) : ℤ) by push_cast; ring]
      exact Int.toNat_natCast _
    have hmin : min 65535 (12 * (U.octave - L.octave).natAbs)
        = 12 * (U.octave - L.octave).natAbs := by omega
    simp only [Interval.get_number_of_semitones, eq_self_iff_true, if_true,
      i8_sub_eq_some hdlo hdhi, i8_abs_eq_some hdne, if_pos h12,
      asU16_mul12, hcast, hmin, u16_sub, if_pos hle]
  · intro h12 hlt
    by_cases hdhi : U.octave - L.octave ≤ 127
    · have hdlo : (-128 : ℤ) ≤ U.octave - L.octave := by omega
      have hdne : U.octave - L.octave ≠ -128 := by intro he; omega
      have hcast : ((((U.octave - L.octave).natAbs : ℤ)) * 12).toNat
          = 12 * (U.octave - L.octave).natAbs := by
        rw [show (((U.octave - L.octave).natAbs : ℤ)) * 12
            = ((12 * (U.octave - L.octave).natAbs : ℕ) : ℤ) by push_cast; ring]
        exact Int.toNat_natCast _
      have hmin : min 65535 (12 * (U.octave - L.octave).natAbs)
          = 12 * (U.octave - L.octave).natAbs := by omega
      have hcond : ¬12 * (U.octave - L.octave).natAbs ≤ rawSemitones ⟨L, U⟩ := by
        omega
      simp only [Interval.get_number_of_semitones, eq_self_iff_true, if_true,
        i8_sub_eq_some hdlo hdhi, i8_abs_eq_some hdne, if_pos h12,
        asU16_mul12, hcast, hmin, u16_sub, if_neg hcond]
    · simp only [Interval.get_number_of_semitones, eq_self_iff_true, if_true,
        i8_sub,
        if_neg (show ¬((-128 : ℤ) ≤ U.octave - L.octave
          ∧ U.octave - L.octave ≤ 127) by omega)]

/-- The scan loop computes: the first minimal-distance candidate if it
beats the incoming threshold, otherwise the incoming best. -/
theorem nearestGo_eq (p : Pitch) (l : List Pitch) :
    ∀ (best : Pitch) (minD : ℚ),
      nearestGo p best minD l =
        (firstMin p l).elim best
          (fun m => if Pitch.distance p m < minD then m else best) := by
  induction l with
  | nil =>
    intro best minD
    simp [nearestGo, firstMin]
  | cons c cs ih =>
    intro best minD
    cases hfm : firstMin p cs with
    | none =>
      by_cases h : Pitch.distance p c < minD
      · simp [nearestGo, firstMin, hfm, ih, h]
      · simp [nearestGo, firstMin, hfm, ih, h]
    | some b =>
      by_cases h1 : Pitch.distance p c < minD
      · by_cases h2 : Pitch.distance p c ≤ Pitch.distance p b
        · have hnb : ¬Pitch.distance p b < Pitch.distance p c := not_lt.mpr h2
          simp [nearestGo, firstMin, hfm, ih, h1, h2, hnb]
        · have hb : Pitch.distance p b < Pitch.distance p c := not_le.mp h2
          have hbmin : Pitch.distance p b < minD := lt_trans hb h1
          simp [nearestGo, firstMin, hfm, ih, h1, h2, hb, hbmin]
      · by_cases h2 : Pitch.distance p c ≤ Pitch.distance p b
        · have hnb : ¬Pitch.distance p b < minD := fun hlt =>
            h1 (lt_of_le_of_lt h2 hlt)
          simp [nearestGo, firstMin, hfm, ih, h1, h2, hnb]
        · simp [nearestGo, firstMin, hfm, ih, h1, h2]

/-- `firstMin` returns `none` only on the empty list. -/
theorem firstMin_none_iff (p : Pitch) (l : List Pitch) :
    firstMin p l = none ↔ l = [] := by
  cases l with
  | nil => simp [firstMin]
  | cons c cs =>
    cases h : firstMin p cs with
    | none => simp [firstMin, h]
    | some b =>
      refine ⟨fun hc => ?_, fun hc => by simp at hc⟩
      simp only [firstMin, h] at hc
      split at hc <;> simp at hc

/-- The first minimal candidate is a member of the list. -/
theorem firstMin_mem (p : Pitch) :
    ∀ (l : List Pitch) (m : Pitch), firstMin p l = some m → m ∈ l := by
  intro l
  induction l with
  | nil => intro m h; simp [firstMin] at h
  | cons c cs ih =>
    intro m h
    cases hfm : firstMin p cs with
    | none =>
      simp only [firstMin, hfm, Option.some.injEq] at h
      simp [h]
    | some b =>
      simp only [firstMin, hfm] at h
      by_cases hd : Pitch.distance p c ≤ Pitch.distance p b
      · rw [if_pos hd] at h
        simp only [Option.some.injEq] at h
        simp [h]
      · rw [if_neg hd] at h
        simp only [Option.some.injEq] at h
        subst h
        exact List.mem_cons_of_mem c (ih b hfm)

/-- The first minimal candidate attains the minimal distance. -/
theorem firstMin_min (p : Pitch) :
    ∀ (l : List Pitch) (m : Pitch), firstMin p l = some m →
      ∀ c ∈ l, Pitch.distance p m ≤ Pitch.distance p c := by
  intro l
  induction l with
  | nil => intro m h; simp [firstMin] at h
  | cons c cs ih =>
    intro m h x hx
    cases hfm : firstMin p cs with
    | none =>
      simp only [firstMin, hfm, Option.some.injEq] at h
      subst h
      rcases List.mem_cons.mp hx with hx | hx
      · rw [hx]
      · exact absurd hfm (by simp [firstMin_none_iff, List.ne_nil_of_mem hx])
    | some b =>
      simp only [firstMin, hfm] at h
      by_cases hd : Pitch.distance p c ≤ Pitch.distance p b
      · rw [if_pos hd] at h
        simp only [Option.some.injEq] at h
        subst h
        rcases List.mem_cons.mp hx with hx | hx
        · rw [hx]
        · exact le_trans hd (ih b hfm x hx)
      · rw [if_neg hd] at h
        simp only [Option.some.injEq] at h
        subst h
        rcases List.mem_cons.mp hx with hx | hx
        · rw [hx]; exact le_of_lt (not_le.mp hd)
        · exact ih b hfm x hx

/-- A decimal digit is not the sharp marker. -/
theorem digit_ne_hash {d : Char} (h : isDigitCh d = true) : d ≠ '#' := by
  intro he
  subst he
  exact absurd h (by decide)

/-- A decimal digit is not the flat marker. -/
theorem digit_ne_b {d : Char} (h : isDigitCh d = true) : d ≠ 'b' := by
  intro he
  subst he
  exact absurd h (by decide)

/-- A parsed letter character is one of the seven letters. -/
theorem letterName_mem (c : Char) (n : PitchName) (h : letterName c = some n) :
    c ∈ letterChars := by
  rw [letterName] at h
  split_ifs at h with h1 h2 h3 h4 h5 h6 h7
  · subst h1; decide
  · subst h2; decide
  · subst h3; decide
  · subst h4; decide
  · subst h5; decide
  · subst h6; decide
  · subst h7; decide

/-- Each of the seven letters parses to a letter name. -/
theorem letterName_of_mem (c : Char) (h : c ∈ letterChars) :
    (letterName c).isSome = true := by
  fin_cases h <;> decide

/-- The octave capture succeeds exactly on the amended octave shapes. -/
theorem parseOctave_amended (o : List Char) :
    (parseOctave o).isSome = true ↔ amendedOctave o := by
  match o with
  | [] =>
    simp [parseOctave, amendedOctave]
  | [d] =>
    by_cases h : isDigitCh d = true
    · simp [parseOctave, h, amendedOctave]
    · simp only [parseOctave, if_neg h]
      simp only [amendedOctave]
      constructor
      · intro hc; simp at hc
      · rintro (⟨d2, he, hd2⟩ | ⟨d1, d2, he, _, _, _⟩)
        · simp only [List.cons.injEq, and_true] at he
          subst he
          exact absurd hd2 h
        · simp at he
  | [d1, d2] =>
    by_cases h : isDigitCh d1 = true ∧ d1 ≠ '0' ∧ isDigitCh d2 = true
    · constructor
      · intro _
        exact Or.inr ⟨d1, d2, rfl, h.1, h.2.1, h.2.2⟩
      · intro _
        simp [parseOctave, if_pos h]
    · simp only [parseOctave, if_neg h, Option.isSome_none, amendedOctave]
      constructor
      · intro hc; simp at hc
      · rintro (⟨e, he, _⟩ | ⟨e1, e2, he, he1, he2, he3⟩)
        · simp at he
        · simp only [List.cons.injEq, and_true] at he
          obtain ⟨rfl, rfl⟩ := he
          exact absurd ⟨he1, he2, he3⟩ h
  | c1 :: c2 :: c3 :: rest =>
    simp only [parseOctave, Option.isSome_none, amendedOctave]
    constructor
    · intro hc; simp at hc
    · rintro (⟨e, he, _⟩ | ⟨e1, e2, he, _, _, _⟩) <;> simp at he

/-- The marker split always peels one of the five canonical markers. -/
theorem splitMarker_decomp (rest : List Char) :
    ∃ m, m ∈ markerStrings ∧ rest = m ++ (splitMarker rest).2 := by
  match rest with
  | [] => exact ⟨[], by decide, rfl⟩
  | [c] =>
    by_cases h1 : c = '#'
    · subst h1; exact ⟨['#'], by decide, by simp [splitMarker]⟩
    · by_cases h2 : c = 'b'
      · subst h2; exact ⟨['b'], by decide, by simp [splitMarker]⟩
      · exact ⟨[], by decide, by simp [splitMarker, h1, h2]⟩
  | c1 :: c2 :: r =>
    by_cases h1 : c1 = '#'
    · subst h1
      by_cases h2 : c2 = '#'
      · subst h2; exact ⟨['#', '#'], by decide, by simp [splitMarker]⟩
      · exact ⟨['#'], by decide, by simp [splitMarker, h2]⟩
    · by_cases h3 : c1 = 'b'
      · subst h3
        by_cases h4 : c2 = 'b'
        · subst h4; exact ⟨['b', 'b'], by decide, by simp [splitMarker]⟩
        · exact ⟨['b'], by decide, by simp [splitMarker, h4]⟩
      · exact ⟨[], by decide, by simp [splitMarker, h1, h3]⟩

/-- Splitting a canonical marker off a marker-plus-octave text recovers the
octave part: the octave starts with a digit, which is neither marker
character. -/
theorem splitMarker_marker (m o : List Char) (hm : m ∈ markerStrings)
    (ho : amendedOctave o) : (splitMarker (m ++ o)).2 = o := by
  have hd : ∃ d o2, o = d :: o2 ∧ isDigitCh d = true := by
    rcases ho with ⟨d, rfl, h⟩ | ⟨d1, d2, rfl, h, _, _⟩
    · exact ⟨d, [], rfl, h⟩
    · exact ⟨d1, [d2], rfl, h⟩
  obtain ⟨d, o2, rfl, hdg⟩ := hd
  have hneH := digit_ne_hash hdg
  have hneB := digit_ne_b hdg
  fin_cases hm
  · cases o2 with
    | nil => simp [splitMarker, hneH, hneB]
    | cons e r => simp [splitMarker, hneH, hneB]
  · simp [splitMarker, hneH]
  · simp [splitMarker]
  · simp [splitMarker, hneB]
  · simp [splitMarker]

/-- Parsing succeeds exactly on the amended grammar. -/
theorem parsePitch_isSome_iff (cs : List Char) :
    (parsePitch cs).isSome = true ↔ amendedGrammar cs := by
  constructor
  · intro h
    match cs with
    | [] => simp [parsePitch] at h
    | c :: rest =>
      cases hl : letterName c with
      | none => simp [parsePitch, hl] at h
      | some n =>
        cases ho : parseOctave (splitMarker rest).2 with
        | none => simp [parsePitch, hl, ho] at h
        | some o =>
          obtain ⟨m, hmm, hrest⟩ := splitMarker_decomp rest
          exact ⟨c, m, (splitMarker rest).2,
            congrArg (fun t => c :: t) hrest,
            letterName_mem c n hl, hmm,
            (parseOctave_amended _).mp (by rw [ho]; rfl)⟩
  · rintro ⟨l, m, o, rfl, hl, hm, ho⟩
    have hsplit := splitMarker_marker m o hm ho
    have hoct : (parseOctave o).isSome = true := (parseOctave_amended o).mpr ho
    cases hln : letterName l with
    | none =>
      have := letterName_of_mem l hl
      rw [hln] at this
      simp at this
    | some n =>
      cases hoo : parseOctave o with
      | none =>
        rw [hoo] at hoct
        simp at hoct
      | some ov =>
        simp [parsePitch, hln, hsplit, hoo]

/-- Claim C1: for every requested pitch and chosen nearest sample pitch
(with `i8` octaves), the signed semitone amount `generate_pitch_samples`
hands to the external pitch-shift transform equals
`(coordinate(requested) − coordinate(chosen)) / 0.5`: positive when the
chosen sample lies below the requested pitch, negative when above, and
zero when the coordinates are equal. -/
theorem claim_c1 (requested chosen : Pitch)
    (h1 : -128 ≤ requested.octave) (h2 : requested.octave ≤ 127)
    (h3 : -128 ≤ chosen.octave) (h4 : chosen.octave ≤ 127) :
    player_handed_semitones requested chosen
      = (f32_from_pitch requested - f32_from_pitch chosen) / (0.5 : ℚ) ∧
    (0 < player_handed_semitones requested chosen ↔
      f32_from_pitch chosen < f32_from_pitch requested) ∧
    (player_handed_semitones requested chosen < 0 ↔
      f32_from_pitch requested < f32_from_pitch chosen) ∧
    (player_handed_semitones requested chosen = 0 ↔
      f32_from_pitch requested = f32_from_pitch chosen) := by
  have hraw : (rawSemitones (Interval.new requested chosen) : ℤ)
      = |coordTwice requested - coordTwice chosen| := by
    rcases interval_new_cases requested chosen with ⟨hnew, hlt⟩ | ⟨hnew, hle⟩
    · rw [hnew, (sem_core requested chosen h1 h2 h3 h4 (le_of_lt hlt)).1,
        abs_sub_comm, abs_of_nonneg (by omega)]
      exact Int.toNat_of_nonneg (by omega)
    · rw [hnew, (sem_core chosen requested h3 h4 h1 h2 hle).1,
        abs_of_nonneg (by omega)]
      exact Int.toNat_of_nonneg (by omega)
  have hrawQ : (rawSemitones (Interval.new requested chosen) : ℚ)
      = ((|coordTwice requested - coordTwice chosen| : ℤ) : ℚ) := by
    exact_mod_cast congrArg (fun z : ℤ => (z : ℚ)) hraw
  have hmain : player_handed_semitones requested chosen
      = ((coordTwice requested - coordTwice chosen : ℤ) : ℚ) := by
    rw [player_handed_semitones, player_shift_steps]
    simp only [pitch_lt_eq]
    by_cases h : coordTwice chosen < coordTwice requested
    · rw [if_pos (by simpa using h), neg_neg, hrawQ,
        abs_of_nonneg (by omega : (0 : ℤ)
          ≤ coordTwice requested - coordTwice chosen)]
    · rw [if_neg (by simpa using h), hrawQ,
        abs_of_nonpos (by omega : coordTwice requested - coordTwice chosen
          ≤ 0)]
      push_cast
      ring
  refine ⟨?_, ?_, ?_, ?_⟩
  · rw [hmain, f32_sub_div_half]
  · rw [hmain, Int.cast_pos, f32_lt_iff]
    exact sub_pos
  · rw [hmain, Int.cast_lt_zero, f32_lt_iff]
    exact sub_neg
  · rw [hmain, Int.cast_eq_zero, f32_eq_iff]
    exact sub_eq_zero

/-- Witness for C1: requesting C1 with nearest sample B0 hands `+1`
semitone to the shifter (shift the sample up by one semitone). -/
theorem claim_c1_witness : player_handed_semitones pC1 pB0 = 1 := by
  have h := (claim_c1 pC1 pB0 (by decide) (by decide) (by decide)
    (by decide)).1
  rw [h]
  norm_num [f32_from_pitch, pC1, pB0, pitchValue, accidentalValue]

/-- Claim C2 (amended): the scan keeps the first candidate strictly closer
than the current best, but the initial best distance is `f32::MAX`, not 0;
so the result is the earliest candidate of minimal distance, and the
requested pitch itself only for an empty candidate list. -/
theorem claim_c2 (p : Pitch) (others : List Pitch)
    (hp1 : -128 ≤ p.octave) (hp2 : p.octave ≤ 127)
    (ho : ∀ c ∈ others, -128 ≤ c.octave ∧ c.octave ≤ 127) :
    Pitch.get_the_nearest_pitch p others = (firstMin p others).getD p ∧
    ∀ c ∈ others,
      Pitch.distance p (Pitch.get_the_nearest_pitch p others)
        ≤ Pitch.distance p c := by
  have key : Pitch.get_the_nearest_pitch p others
      = (firstMin p others).getD p := by
    rw [Pitch.get_the_nearest_pitch, nearestGo_eq]
    cases hfm : firstMin p others with
    | none => rfl
    | some m =>
      have hmem := firstMin_mem p others m hfm
      obtain ⟨hc1, hc2⟩ := ho m hmem
      have hdist := distance_lt_f32MAX p m hp1 hp2 hc1 hc2
      simp [hdist]
  refine ⟨key, ?_⟩
  intro c hc
  rw [key]
  cases hfm : firstMin p others with
  | none =>
    rw [firstMin_none_iff] at hfm
    subst hfm
    simp at hc
  | some m =>
    simp only [Option.getD_some]
    exact firstMin_min p others m hfm c hc

/-- Witness for C2: the spec scenario; requested C1 against the seven
naturals of octave 0 resolves to B0. -/
theorem claim_c2_witness :
    Pitch.get_the_nearest_pitch pC1 [pC0, pD0, pE0, pF0, pG0, pA0, pB0]
      = pB0 := by
  have h := (claim_c2 pC1 [pC0, pD0, pE0, pF0, pG0, pA0, pB0]
    (by decide) (by decide) (by decide)).1
  rw [h]
  simp only [firstMin, distance_le_iff]
  decide

/-- Counterexample for C2: with candidate list `[B0]` and requested pitch
C1, the claimed rule (initial best = requested pitch at distance 0) keeps
C1, but the code returns B0 — the initial distance is `f32::MAX`, not 0. -/
theorem claim_c2_counterexample :
    Pitch.get_the_nearest_pitch pC1 [pB0] = pB0 ∧
    nearest_spec_zero pC1 [pB0] = pC1 ∧
    f32_from_pitch pB0 ≠ f32_from_pitch pC1 := by
  refine ⟨?_, ?_, ?_⟩
  · have hdist := distance_lt_f32MAX pC1 pB0 (by decide) (by decide)
      (by decide) (by decide)
    simp only [Pitch.get_the_nearest_pitch, nearestGo, if_pos hdist]
  · have h0 : (0 : ℚ) ≤ Pitch.distance pC1 pB0 := by
      rw [distance_eq]
      positivity
    simp only [nearest_spec_zero, nearestGo, if_neg (not_lt.mpr h0)]
  · intro hcontra
    exact absurd ((f32_eq_iff pB0 pC1).mp hcontra) (by decide)

/-- Claim C3 (amended): equal-coordinate pitches always give semitone
count 0, and interval number 1 when they share the same letter name (then
they are the same pitch); distinct enharmonic spellings can give other
numbers. -/
theorem claim_c3 (p1 p2 : Pitch) (b : Bool)
    (h : f32_from_pitch p1 = f32_from_pitch p2) :
    Interval.get_number_of_semitones (Interval.new p1 p2) b = some 0 ∧
    (p1.name = p2.name →
      Interval.get_number (Interval.new p1 p2) b = some 1) := by
  refine ⟨sem_zero_of_coord_eq p1 p2 h b, ?_⟩
  intro hname
  have hct : coordTwice p1 = coordTwice p2 := (f32_eq_iff p1 p2).mp h
  have hpp : p1 = p2 := by
    obtain ⟨n1, a1, o1⟩ := p1
    obtain ⟨n2, a2, o2⟩ := p2
    simp only at hname
    subst hname
    simp only [coordTwice] at hct
    have ha1 := acc2_bounds a1
    have ha2 := acc2_bounds a2
    have hoct : o1 = o2 := by omega
    subst hoct
    have haeq : coordTwice.acc2 a1 = coordTwice.acc2 a2 := by omega
    rw [acc2_inj a1 a2 haeq]
  subst hpp
  have hnew : Interval.new p1 p1 = ⟨p1, p1⟩ := by
    rw [Interval.new_eq, if_neg (lt_irrefl _)]
  rw [hnew]
  have hs1 : i8_sub p1.octave p1.octave = some 0 := by
    rw [i8_sub, if_pos (by omega), sub_self]
  have hs2 : i8_abs 0 = some 0 := by decide
  have hs3 : u8_mul7 0 = some 0 := by decide
  cases b <;>
    simp [Interval.get_number, hs1, hs2, hs3, u8_sub, u8_add, Nat.sub_self]

/-- Witness for C3: the enharmonic pair C sharp 0 and D flat 0 has
semitone count 0. -/
theorem claim_c3_witness :
    Interval.get_number_of_semitones (Interval.new pCs0 pDb0) true
      = some 0 :=
  (claim_c3 pCs0 pDb0 true ((f32_eq_iff pCs0 pDb0).mpr (by decide))).1

/-- Counterexample for C3: C sharp 0 and D flat 0 have equal coordinates,
but the interval built from them is not a unison: the diatonic number
(octave ignored) is 7, not 1, and with the octave counted the `u8`
subtraction underflows (panic). -/
theorem claim_c3_counterexample :
    f32_from_pitch pCs0 = f32_from_pitch pDb0 ∧
    Interval.get_number (Interval.new pCs0 pDb0) true ≠ some 1 ∧
    Interval.get_number (Interval.new pCs0 pDb0) true = some 7 ∧
    Interval.get_number (Interval.new pCs0 pDb0) false = none := by
  refine ⟨?_, ?_, ?_, ?_⟩
  · rw [f32_eq_iff]
    decide
  · simp only [Interval.new_eq]
    decide
  · simp only [Interval.new_eq]
    decide
  · simp only [Interval.new_eq]
    decide

/-- Claim C4 (amended): `Interval::new(p1, p2)` and `Interval::new(p2, p1)`
are the same interval whenever the coordinates differ (so number, semitone
count and quality all agree), and the semitone count agrees for every
pair; but distinct enharmonically-equal spellings produce swapped
intervals whose number and quality can differ. -/
theorem claim_c4 (p1 p2 : Pitch) :
    (f32_from_pitch p1 ≠ f32_from_pitch p2 →
      Interval.new p1 p2 = Interval.new p2 p1) ∧
    (∀ b, Interval.get_number_of_semitones (Interval.new p1 p2) b
       = Interval.get_number_of_semitones (Interval.new p2 p1) b) := by
  constructor
  · intro hne
    have hct : coordTwice p1 ≠ coordTwice p2 :=
      fun hc => hne ((f32_eq_iff p1 p2).mpr hc)
    rw [Interval.new_eq, Interval.new_eq]
    rcases lt_trichotomy (coordTwice p1) (coordTwice p2) with h | h | h
    · rw [if_pos h, if_neg (by omega)]
    · exact absurd h hct
    · rw [if_neg (by omega), if_pos h]
  · intro b
    rcases lt_trichotomy (coordTwice p1) (coordTwice p2) with h | h | h
    · rw [Interval.new_eq, Interval.new_eq, if_pos h, if_neg (by omega)]
    · have hf : f32_from_pitch p1 = f32_from_pitch p2 :=
        (f32_eq_iff p1 p2).mpr h
      rw [sem_zero_of_coord_eq p1 p2 hf b,
        sem_zero_of_coord_eq p2 p1 hf.symm b]
    · rw [Interval.new_eq, Interval.new_eq, if_neg (by omega), if_pos h]

/-- Witness for C4: C0 and D0 have different coordinates, so the two
argument orders build the same interval. -/
theorem claim_c4_witness : Interval.new pC0 pD0 = Interval.new pD0 pC0 := by
  apply (claim_c4 pC0 pD0).1
  intro hc
  exact absurd ((f32_eq_iff pC0 pD0).mp hc) (by decide)

/-- Counterexample for C4: for the enharmonic pair C sharp 0 / D flat 0
the two argument orders give different diatonic numbers (7 versus 2) and
different qualities (undefined versus diminished). -/
theorem claim_c4_counterexample :
    Interval.get_number (Interval.new pCs0 pDb0) true
      ≠ Interval.get_number (Interval.new pDb0 pCs0) true ∧
    Interval.get_number (Interval.new pDb0 pCs0) true = some 2 ∧
    Interval.get_quality (Interval.new pCs0 pDb0) = some none ∧
    Interval.get_quality (Interval.new pDb0 pCs0)
      = some (some IntervalQuality.Diminished) := by
  refine ⟨?_, ?_, ?_, ?_⟩ <;>
    (simp only [Interval.new_eq, Interval.get_quality,
       Interval.get_number_of_semitones, rawSemitones_eq, asU16_mul12]
     decide)

/-- Claim C5 (amended): when the (number, semitone) pair has no entry in
the quality table, `get_specific_interval` panics on the `unwrap` instead
of propagating the error as a recoverable result; when the table has an
entry it returns the octave-ignored number, the quality, and the flag
`semitone_count(ignore_octave = false) > 12`. -/
theorem claim_c5 (i : Interval) (n s : ℕ)
    (hn : Interval.get_number i true = some n)
    (hs : Interval.get_number_of_semitones i true = some s) :
    (quality_table n s = none → Interval.get_specific_interval i = none) ∧
    (∀ q, quality_table n s = some q →
      Interval.get_specific_interval i
        = some (n, q, decide (12 < rawSemitones i))) := by
  have hq : Interval.get_quality i = some (quality_table n s) := by
    simp only [Interval.get_quality, hn, hs]
  constructor
  · intro hnone
    simp only [Interval.get_specific_interval, hn, hq, hnone]
  · intro q hsome
    simp only [Interval.get_specific_interval, hn, hq, hsome]

/-- Witness for C5: C0 to E0 is a major third within one octave. -/
theorem claim_c5_witness :
    Interval.get_specific_interval (Interval.new pC0 pE0)
      = some (3, IntervalQuality.Major, false) := by
  have hn : Interval.get_number (Interval.new pC0 pE0) true = some 3 := by
    simp only [Interval.new_eq]
    decide
  have hs : Interval.get_number_of_semitones (Interval.new pC0 pE0) true
      = some 4 := by
    simp only [Interval.new_eq, Interval.get_number_of_semitones,
      rawSemitones_eq, asU16_mul12]
    decide
  have h := (claim_c5 (Interval.new pC0 pE0) 3 4 hn hs).2
    IntervalQuality.Major (by decide)
  rw [h]
  simp only [Interval.new_eq, rawSemitones_eq]
  decide

/-- Counterexample for C5: C0 to C double sharp 0 (number 1, semitones 2)
has no table entry; `get_quality` returns the `Err` value, but
`get_specific_interval` panics (`none` in the model) instead of returning
a recoverable result. -/
theorem claim_c5_counterexample :
    Interval.get_quality (Interval.new pC0 pCss0) = some none ∧
    Interval.get_specific_interval (Interval.new pC0 pCss0) = none := by
  constructor <;>
    (simp only [Interval.new_eq, Interval.get_specific_interval,
       Interval.get_quality, Interval.get_number_of_semitones,
       rawSemitones_eq, asU16_mul12]
     decide)

/-- Claim C6 (amended): `get_number_of_semitones` returns the truncated
coordinate difference over `0.5`; with `ignore_octave` and a raw count
over 12 it subtracts `|Δoctave| × 12` in `u16`, which is well defined only
when `12·|Δoctave|` does not exceed the raw count (and `|Δoctave| ≤ 127`);
otherwise the subtraction underflows (or the `i8` difference overflows)
and the call panics. -/
theorem claim_c6 (p1 p2 : Pitch)
    (h1 : -128 ≤ p1.octave) (h2 : p1.octave ≤ 127)
    (h3 : -128 ≤ p2.octave) (h4 : p2.octave ≤ 127)
    (i : Interval) (hi : i = Interval.new p1 p2) :
    Interval.get_number_of_semitones i false = some (rawSemitones i) ∧
    ((rawSemitones i : ℚ)
      = (f32_from_pitch i.upper - f32_from_pitch i.lower) / (0.5 : ℚ)) ∧
    (rawSemitones i ≤ 12 →
      Interval.get_number_of_semitones i true = some (rawSemitones i)) ∧
    (12 < rawSemitones i →
      12 * (i.upper.octave - i.lower.octave).natAbs ≤ rawSemitones i →
      (i.upper.octave - i.lower.octave).natAbs ≤ 127 →
      Interval.get_number_of_semitones i true
        = some (rawSemitones i
            - 12 * (i.upper.octave - i.lower.octave).natAbs)) ∧
    (12 < rawSemitones i →
      rawSemitones i < 12 * (i.upper.octave - i.lower.octave).natAbs →
      Interval.get_number_of_semitones i true = none) := by
  subst hi
  rcases interval_new_cases p1 p2 with ⟨hnew, hlt⟩ | ⟨hnew, hle⟩
  · rw [hnew]
    have h := sem_core p1 p2 h1 h2 h3 h4 (le_of_lt hlt)
    exact ⟨h.2.1, h.2.2.1, h.2.2.2.1, h.2.2.2.2.1, h.2.2.2.2.2⟩
  · rw [hnew]
    have h := sem_core p2 p1 h3 h4 h1 h2 hle
    exact ⟨h.2.1, h.2.2.1, h.2.2.2.1, h.2.2.2.2.1, h.2.2.2.2.2⟩

/-- Witness for C6: C0 to E1 has raw count 16 and octave difference 1, so
ignoring the octave yields 16 − 12 = 4 semitones. -/
theorem claim_c6_witness :
    Interval.get_number_of_semitones (Interval.new pC0 pE1) true
      = some 4 := by
  have h := (claim_c6 pC0 pE1 (by decide) (by decide) (by decide)
    (by decide) (Interval.new pC0 pE1) rfl).2.2.2.1
  have hraw : rawSemitones (Interval.new pC0 pE1) = 16 := by
    simp only [Interval.new_eq, rawSemitones_eq]
    decide
  have hod : ((Interval.new pC0 pE1).upper.octave
      - (Interval.new pC0 pE1).lower.octave).natAbs = 1 := by
    simp only [Interval.new_eq]
    decide
  rw [hraw, hod] at h
  simpa using h (by norm_num) (by norm_num) (by norm_num)

/-- Counterexample for C6: B0 to C2 has raw count 13 and octave difference
2, so the claimed result `13 − 24` is not a well-defined `u16` value; the
code's subtraction underflows (panic, `none` in the model). -/
theorem claim_c6_counterexample :
    rawSemitones (Interval.new pB0 pC2) = 13 ∧
    ((Interval.new pB0 pC2).upper.octave
      - (Interval.new pB0 pC2).lower.octave).natAbs = 2 ∧
    Interval.get_number_of_semitones (Interval.new pB0 pC2) true
      = none := by
  refine ⟨?_, ?_, ?_⟩ <;>
    (simp only [Interval.new_eq, Interval.get_number_of_semitones,
       rawSemitones_eq, asU16_mul12]
     decide)

/-- Claim C7: pitch equality and ordering are determined purely by the
coordinate `base(name) + offset(accidental) + octave × 6`, so enharmonic
pairs such as C sharp 0 and D flat 0 compare equal although their fields
differ. -/
theorem claim_c7 (p1 p2 : Pitch) :
    (pitch_eq p1 p2 = true ↔ f32_from_pitch p1 = f32_from_pitch p2) ∧
    (pitch_lt p1 p2 = true ↔ f32_from_pitch p1 < f32_from_pitch p2) ∧
    f32_from_pitch p1
      = (pitchValue p1.name + accidentalValue p1.accidental)
        + (p1.octave : ℚ) * 6 ∧
    pitch_eq pCs0 pDb0 = true ∧ pCs0.name ≠ pDb0.name := by
  refine ⟨?_, ?_, rfl, ?_, by decide⟩
  · rw [pitch_eq]
    exact decide_eq_true_iff
  · rw [pitch_lt]
    exact decide_eq_true_iff
  · rw [pitch_eq_eq]
    decide

/-- Claim C8 (amended): parsing a pitch succeeds iff the text is a letter
A–G, an optional marker among `#`, `b`, `##`, `bb`, then one digit or two
digits whose first is nonzero — two-digit octaves with a leading zero are
rejected. -/
theorem claim_c8 (cs : List Char) :
    (parsePitch cs).isSome = true ↔ amendedGrammar cs :=
  parsePitch_isSome_iff cs

/-- Counterexample for C8: `"C00"` fits the claimed grammar (letter, no
marker, two decimal digits with value 0 ≤ 99) but the code rejects it:
the octave alternative `[0-9]|[1-9]\d` excludes leading zeros. -/
theorem claim_c8_counterexample :
    claimGrammar ['C', '0', '0'] ∧ parsePitch ['C', '0', '0'] = none := by
  constructor
  · exact ⟨'C', [], ['0', '0'], rfl, by decide, by decide,
      Or.inr ⟨'0', '0', rfl, by decide, by decide⟩⟩
  · decide

/-- Claim C9: `Scale::try_new` succeeds iff the arithmetic sum of the
steps is exactly 12, with no restriction on the length of the sequence. -/
theorem claim_c9 (steps : List ℕ) (hu8 : ∀ s ∈ steps, s ≤ 255) :
    (Scale.try_new steps).isSome = true ↔ steps.sum = 12 := by
  rw [Scale.try_new_eq]
  by_cases h : steps.sum = 12
  · simp [h]
  · simp [h]

/-- Witness for C9: the major scale steps sum to 12 and are accepted. -/
theorem claim_c9_witness :
    (Scale.try_new [2, 2, 1, 2, 2, 2, 1]).isSome = true :=
  (claim_c9 [2, 2, 1, 2, 2, 2, 1] (by decide)).mpr (by decide)

/-- Claim C10: for `i8` octaves the coordinate is an exact half-integer of
magnitude at most 769 (so the `f32` value is finite and non-NaN), and the
modelled `partial_cmp` always returns `Some`: the `unwrap` in `Ord::cmp`
never panics. -/
theorem claim_c10 (p1 p2 : Pitch)
    (h1 : -128 ≤ p1.octave) (h2 : p1.octave ≤ 127)
    (h3 : -128 ≤ p2.octave) (h4 : p2.octave ≤ 127) :
    (∃ k : ℤ, f32_from_pitch p1 = (k : ℚ) / 2 ∧ k.natAbs ≤ 1538) ∧
    (pitch_pcmp p1 p2).isSome = true := by
  constructor
  · refine ⟨coordTwice p1, ?_, ?_⟩
    · have h := coordTwice_spec p1
      rw [eq_div_iff (two_ne_zero)]
      linarith
    · obtain ⟨hl, hu⟩ := coordTwice_bounds p1 h1 h2
      omega
  · rfl

/-- Witness for C10: instantiated at C0 and D0. -/
theorem claim_c10_witness :
    (∃ k : ℤ, f32_from_pitch pC0 = (k : ℚ) / 2 ∧ k.natAbs ≤ 1538) ∧
    (pitch_pcmp pC0 pD0).isSome = true :=
  claim_c10 pC0 pD0 (by decide) (by decide) (by decide) (by decide)

/-- Validation against `f32_from_pitch_tests` in `pitch.rs`. -/
theorem src_test_coordinates :
    f32_from_pitch pC0 = 0 ∧ f32_from_pitch pF0 = 2.5 ∧
    f32_from_pitch pB0 = 5.5 ∧ f32_from_pitch pC1 = 6 ∧
    f32_from_pitch ⟨.C, .Flat, 0⟩ = -0.5 := by
  norm_num [f32_from_pitch, pC0, pF0, pB0, pC1, pitchValue, accidentalValue]

/-- Validation against `pitch_eq_tests` in `pitch.rs`. -/
theorem src_test_eq :
    pitch_eq pCs0 pDb0 = true ∧ pitch_eq pC0 pD0 = false ∧
    pitch_eq pC0 pC1 = false := by
  simp only [pitch_eq_eq, pCs0, pDb0, pC0, pD0, pC1]
  decide

/-- Validation against `get_the_nearest_pitch_tests` in `pitch.rs`: C0
against candidates starting with C#0 resolves to C#0. -/
theorem src_test_nearest :
    Pitch.get_the_nearest_pitch pC0 [pCs0, pD0, pE0, pF0, pG0, pA0, pB0]
      = pCs0 := by
  norm_num [Pitch.get_the_nearest_pitch, nearestGo, distance_eq, f32MAX,
    pC0, pCs0, pD0, pE0, pF0, pG0, pA0, pB0, coordTwice,
    coordTwice.pitchBase2, coordTwice.acc2]

/-- Validation against `get_number_tests` in `interval.rs`. -/
theorem src_test_number :
    Interval.get_number (Interval.new pC0 pE0) false = some 3 ∧
    Interval.get_number (Interval.new pC0 pE1) false = some 10 ∧
    Interval.get_number (Interval.new pC1 ⟨.G, .None, 3⟩) false = some 19 ∧
    Interval.get_number (Interval.new pC1 pB0) true = some 2 ∧
    Interval.get_number (Interval.new pC1 pG0) true = some 4 := by
  simp only [Interval.new_eq, pC0, pE0, pE1, pC1, pB0, pG0]
  decide

/-- Validation against `get_number_of_semitones_tests` in `interval.rs`. -/
theorem src_test_semitones :
    Interval.get_number_of_semitones (Interval.new pC0 pE0) false
      = some 4 ∧
    Interval.get_number_of_semitones (Interval.new pC1 ⟨.G, .None, 3⟩) false
      = some 31 ∧
    Interval.get_number_of_semitones (Interval.new pC0 pE1) true = some 4 ∧
    Interval.get_number_of_semitones (Interval.new pC1 ⟨.G, .None, 3⟩) true
      = some 7 ∧
    Interval.get_number_of_semitones (Interval.new pC1 pB0) true
      = some 1 := by
  simp only [Interval.new_eq, Interval.get_number_of_semitones,
    rawSemitones_eq, asU16_mul12, pC0, pE0, pE1, pC1, pB0]
  decide

/-- Validation against `get_quality_tests` in `interval.rs`. -/
theorem src_test_quality :
    Interval.get_quality (Interval.new pC0 pC0)
      = some (some IntervalQuality.Perfect) ∧
    Interval.get_quality (Interval.new pE0 pF0)
      = some (some IntervalQuality.Minor) ∧
    Interval.get_quality (Interval.new pC0 pD0)
      = some (some IntervalQuality.Major) ∧
    Interval.get_quality (Interval.new pC0 ⟨.F, .Flat, 0⟩)
      = some (some IntervalQuality.Diminished) ∧
    Interval.get_quality (Interval.new pC0 ⟨.F, .Sharp, 0⟩)
      = some (some IntervalQuality.Augmented) := by
  simp only [Interval.new_eq, Interval.get_quality,
    Interval.get_number_of_semitones, rawSemitones_eq, asU16_mul12,
    pC0, pD0, pE0, pF0]
  decide

/-- Validation against `get_specific_interval_tests` in `interval.rs`. -/
theorem src_test_specific :
    Interval.get_specific_interval (Interval.new pC0 pE0)
      = some (3, IntervalQuality.Major, false) ∧
    Interval.get_specific_interval (Interval.new pC0 pE1)
      = some (3, IntervalQuality.Major, true) ∧
    Interval.get_specific_interval (Interval.new pC1 ⟨.G, .None, 3⟩)
      = some (5, IntervalQuality.Perfect, true) := by
  simp only [Interval.new_eq, Interval.get_specific_interval,
    Interval.get_quality, Interval.get_number_of_semitones,
    rawSemitones_eq, asU16_mul12, pC0, pE0, pE1, pC1]
  decide

/-- Validation against `pitch_from_string_tests` in `pitch.rs`, plus the
spec's parse-failure scenarios. -/
theorem src_test_parse :
    parsePitch ['C', '0'] = some ⟨.C, .None, 0⟩ ∧
    parsePitch ['C', '#', '0'] = some ⟨.C, .Sharp, 0⟩ ∧
    parsePitch ['C', 'b', 'b', '0'] = some ⟨.C, .DoubleFlat, 0⟩ ∧
    parsePitch ['C', 'b', 'b', '1', '2'] = some ⟨.C, .DoubleFlat, 12⟩ ∧
    parsePitch ['H', '0'] = none ∧
    parsePitch ['C', '#', '#', '#', '0'] = none ∧
    parsePitch ['C'] = none := by
  decide

/-- Validation against the `Scale::try_new` test in `scale.rs` and the
spec's scale scenarios. -/
theorem src_test_scale :
    (Scale.try_new [2, 2, 1, 2, 2, 2, 1]).isSome = true ∧
    (Scale.try_new [2, 2, 2]).isSome = false ∧
    (Scale.try_new [12]).isSome = true := by
  simp only [Scale.try_new_eq]
  decide

end Ecotonova
